import Mathlib

/-!
Verification of the dynamic routing and configuration subsystem of the
ApiFileStub server (src/tools.rs, src/api.rs).

Strings are modelled as lists of characters (`Str`); each Rust helper is
embedded as an executable Lean function operating on that representation.
File-system reads are modelled by passing the relevant file contents as an
explicit argument (a missing file reads as the empty string, mirroring
`unwrap_or_default`).  Path semantics follow `std::path` on Unix, the
platform the server targets: the byte `\` is an ordinary character there,
not a separator.
-/

abbrev Str := List Char

/-- Whitespace per Rust `char::is_whitespace` (Unicode White_Space). -/
def isRustWs (c : Char) : Bool :=
  let n := c.toNat
  n == 0x20 || (0x9 ≤ n && n ≤ 0xD) || n == 0x85 || n == 0xA0 || n == 0x1680 ||
  (0x2000 ≤ n && n ≤ 0x200A) || n == 0x2028 || n == 0x2029 || n == 0x202F ||
  n == 0x205F || n == 0x3000

/-- Model of Rust `str::trim`: drop whitespace from both ends. -/
def trimStr (s : Str) : Str :=
  ((s.dropWhile isRustWs).reverse.dropWhile isRustWs).reverse

/-- Model of Rust `str::starts_with` for a string pattern (first argument). -/
def strStartsWith : Str → Str → Bool
  | [], _ => true
  | _ :: _, [] => false
  | p :: ps, c :: cs => p == c && strStartsWith ps cs

/-- Model of Rust `str::ends_with` for a string pattern (first argument). -/
def strEndsWith (suf s : Str) : Bool :=
  strStartsWith suf.reverse s.reverse

/-- Split a character list at every occurrence of `c` (separators consumed). -/
def splitOnChar (c : Char) : Str → List Str
  | [] => [[]]
  | a :: rest =>
    if a == c then [] :: splitOnChar c rest
    else
      match splitOnChar c rest with
      | [] => [[a]]
      | h :: t => (a :: h) :: t

/-- Model of Rust `str::lines` (the parser trims each line afterwards, so the
final empty chunk and carriage returns are harmless). -/
def strLines (s : Str) : List Str := splitOnChar '\n' s

/-- Accumulator-based splitter behind `splitWhitespace`; the second argument
holds the current token reversed. -/
def swAux : Str → Str → List Str
  | [], acc => if acc = [] then [] else [acc.reverse]
  | c :: rest, acc =>
    if isRustWs c then
      if acc = [] then swAux rest [] else acc.reverse :: swAux rest []
    else swAux rest (c :: acc)

/-- Model of Rust `str::split_whitespace`: maximal non-whitespace runs. -/
def splitWhitespace (s : Str) : List Str := swAux s []

/-- Model of Rust `str::to_uppercase`, restricted to ASCII case mapping (the
configuration strings the server compares are ASCII). -/
def toUpperStr (s : Str) : Str := s.map Char.toUpper

/-- Model of Rust `str::trim_end_matches('/')`: drop all trailing slashes. -/
def trimEndSlashes (s : Str) : Str :=
  (s.reverse.dropWhile (fun c => c == '/')).reverse

/-! ## PathGuard (src/tools.rs) -/

/-- One component of `std::path::Path::components()` on Unix. -/
inductive PathComponent where
  | rootDir
  | curDir
  | parentDir
  | normal (name : Str)
deriving DecidableEq

/-- Classify one slash-separated segment the way `Path::components()` does on
Unix: empty segments disappear, `.` survives only as the leading segment,
`..` is a parent reference, anything else is a normal name. -/
def componentOfSeg (isFirst : Bool) (seg : Str) : Option PathComponent :=
  if seg = [] then none
  else if seg = ['.'] then (if isFirst then some PathComponent.curDir else none)
  else if seg = ['.', '.'] then some PathComponent.parentDir
  else some (PathComponent.normal seg)

/-- Fold `componentOfSeg` over the slash-separated segments. -/
def segComponents : Bool → List Str → List PathComponent
  | _, [] => []
  | isFirst, seg :: rest =>
    match componentOfSeg isFirst seg with
    | some comp => comp :: segComponents false rest
    | none => segComponents false rest

/-- Model of `Path::new(p).components()` on Unix: a leading slash yields a
root component, then the segments are classified in order. -/
def pathComponents (p : Str) : List PathComponent :=
  (if strStartsWith ['/'] p then [PathComponent.rootDir] else []) ++
    segComponents true (splitOnChar '/' p)

/-- Embedding of `is_safe_segment` (src/tools.rs:170). -/
def is_safe_segment (s : Str) : Bool :=
  !s.isEmpty && !(s == ".".data) && !(s == "..".data) &&
    !(s.contains '/') && !(s.contains '\\')

/-- A component is acceptable to `is_safe_rel_path` when it is a non-empty
normal name. -/
def okComponent : PathComponent → Bool
  | PathComponent.normal name => !name.isEmpty
  | _ => false

/-- Embedding of `is_safe_rel_path` (src/tools.rs:179): every path component
must be a plain non-empty normal name. -/
def is_safe_rel_path (p : Str) : Bool :=
  (pathComponents p).all okComponent

example : is_safe_rel_path "a/b/c".data = true := by decide
example : is_safe_rel_path "a/../b".data = false := by decide
example : is_safe_rel_path "".data = true := by decide
example : is_safe_rel_path "a\\b".data = true := by decide
example : is_safe_rel_path "./a".data = false := by decide
example : is_safe_rel_path "a/./b".data = true := by decide

/-- Claim C1, counterexample: the claim asserts that `is_safe_rel_path`
rejects the empty string and a string with a backslash, but the code accepts
both: the empty path has no components at all (the caller `get_json` checks
emptiness separately), and on Unix a backslash is an ordinary character, so
`a\b` is a single normal component. -/
theorem is_safe_rel_path_claim_counterexample :
    is_safe_rel_path "".data = true ∧ is_safe_rel_path "a\\b".data = true := by
  exact ⟨by decide, by decide⟩

/-- Claim C1 (amended): `is_safe_segment` rejects the empty string, `.`,
`..`, and any string containing a slash or backslash; `is_safe_rel_path`
rejects `.`, `..`, `a/../b` and `/abs` and accepts `a` and `a/b/c`, but it
accepts the empty string (no components) and `a\b` (backslash is not a
separator on Unix). -/
theorem path_guard_validators :
    (∀ s : Str, ('/' ∈ s ∨ '\\' ∈ s) → is_safe_segment s = false) ∧
    is_safe_segment "".data = false ∧
    is_safe_segment ".".data = false ∧
    is_safe_segment "..".data = false ∧
    is_safe_rel_path "".data = true ∧
    is_safe_rel_path ".".data = false ∧
    is_safe_rel_path "..".data = false ∧
    is_safe_rel_path "a/../b".data = false ∧
    is_safe_rel_path "/abs".data = false ∧
    is_safe_rel_path "a\\b".data = true ∧
    is_safe_rel_path "a".data = true ∧
    is_safe_rel_path "a/b/c".data = true := by
  refine ⟨?_, by decide, by decide, by decide, by decide, by decide, by decide,
    by decide, by decide, by decide, by decide, by decide⟩
  intro s hs
  rcases hs with h | h
  · simp only [is_safe_segment]
    simp
    intro _ _ _ h4
    exact absurd h h4
  · simp only [is_safe_segment]
    simp
    intro _ _ _ _
    exact h

/-- Witness for C1: a concrete string containing a slash is rejected. -/
theorem path_guard_validators_witness : is_safe_segment "x/y".data = false :=
  path_guard_validators.1 "x/y".data (Or.inl (by decide))

/-! ## Log ignore patterns (src/tools.rs) -/

/-- Embedding of `normalize_log_pattern` (src/tools.rs:97): trim, require
non-empty, prepend a slash when missing, reject backslashes and any `*` that
is not a trailing `/*`.  The slash-prepending step (`format!("/{}", raw)`)
is factored out as `normalizeSlash`. -/
def normalizeSlash (raw : Str) : Str :=
  if strStartsWith ['/'] raw then raw else '/' :: raw

/-- Embedding of the body of `normalize_log_pattern` (src/tools.rs:97). -/
def normalize_log_pattern (input : Str) : Option Str :=
  if trimStr input = [] then none
  else if (normalizeSlash (trimStr input)).contains '\\' then none
  else if (normalizeSlash (trimStr input)).contains '*' &&
      !(strEndsWith "/*".data (normalizeSlash (trimStr input))) then none
  else some (normalizeSlash (trimStr input))

/-- Embedding of `read_log_ignore_patterns` (src/tools.rs:59): the defaults
`/` and `/events` followed by the normalized lines of `log_ignore.txt`
(whose contents are the argument; a missing file reads as `""`). -/
def read_log_ignore_patterns (contents : Str) : List Str :=
  ["/".data, "/events".data] ++ (strLines contents).filterMap normalize_log_pattern

/-- One iteration of the matching loop inside `is_log_ignored`
(src/tools.rs:82): `/*` patterns match the bare base, the slashed form and
any extension of the slashed form; other patterns match only exactly. -/
def matchesIgnorePattern (path pat : Str) : Bool :=
  if strEndsWith "/*".data pat then
    let pfx := pat.take (pat.length - 1)
    let base := trimEndSlashes pfx
    path == base || path == pfx || strStartsWith pfx path
  else path == pat

/-- Embedding of `is_log_ignored` (src/tools.rs:80), with the contents of
`log_ignore.txt` passed explicitly. -/
def is_log_ignored (contents path : Str) : Bool :=
  (read_log_ignore_patterns contents).any (matchesIgnorePattern path)

/-- The lines persisted by `set_log_ignore` (src/api.rs:536): every line of
the submitted form field that `normalize_log_pattern` accepts. -/
def set_log_ignore_lines (field : Str) : List Str :=
  (strLines field).filterMap normalize_log_pattern

/-- Claim C4: with an absent configuration file only the defaults `/` and
`/events` are active and `/events` is ignored; with `/json/*` configured,
`/json/foo` is ignored while `/jsonx` is not (the `/*` match respects the
path boundary). -/
theorem log_ignore_matching :
    is_log_ignored "".data "/events".data = true ∧
    is_log_ignored "/json/*".data "/json/foo".data = true ∧
    is_log_ignored "/json/*".data "/jsonx".data = false := by
  exact ⟨by decide, by decide, by decide⟩


/-- Normalized patterns always start with a slash. -/
theorem normalizeSlash_head (raw : Str) (h : raw ≠ []) :
    (normalizeSlash raw).head? = some '/' := by
  unfold normalizeSlash
  by_cases hsl : strStartsWith ['/'] raw = true
  · rw [if_pos hsl]
    cases raw with
    | nil => exact absurd rfl h
    | cons c rest =>
      simp only [strStartsWith, Bool.and_eq_true, beq_iff_eq] at hsl
      rw [hsl.1]
      rfl
  · rw [if_neg hsl]
    rfl

/-- Claim C10: every pattern accepted by `normalize_log_pattern` begins with
a slash (one is prepended when the trimmed input lacks it), hence every
pattern stored by `set_log_ignore` and every pattern returned by
`read_log_ignore_patterns` begins with a slash; the input `events` is
normalized to `/events`. -/
theorem normalize_pattern_leading_slash :
    (∀ input p, normalize_log_pattern input = some p → p.head? = some '/') ∧
    (∀ field p, p ∈ set_log_ignore_lines field → p.head? = some '/') ∧
    (∀ contents p, p ∈ read_log_ignore_patterns contents → p.head? = some '/') ∧
    normalize_log_pattern "events".data = some "/events".data := by
  have main : ∀ input p, normalize_log_pattern input = some p → p.head? = some '/' := by
    intro input p h
    unfold normalize_log_pattern at h
    split at h
    · exact absurd h (by simp)
    · rename_i hraw
      split at h
      · exact absurd h (by simp)
      · split at h
        · exact absurd h (by simp)
        · rw [← Option.some.inj h]
          exact normalizeSlash_head _ hraw
  refine ⟨main, ?_, ?_, by decide⟩
  · intro field p hp
    rcases List.mem_filterMap.mp hp with ⟨input, _, hn⟩
    exact main input p hn
  · intro contents p hp
    rcases List.mem_append.mp hp with h | h
    · simp only [List.mem_cons, List.not_mem_nil, or_false] at h
      rcases h with h | h <;> (subst h; rfl)
    · rcases List.mem_filterMap.mp h with ⟨input, _, hn⟩
      exact main input p hn

/-- Witness for C10: the concrete input `events` yields a pattern whose
first character is the slash. -/
theorem normalize_pattern_leading_slash_witness :
    ("/events".data).head? = some '/' :=
  normalize_pattern_leading_slash.1 "events".data "/events".data (by decide)

/-! ## LogHub (src/tools.rs) -/

/-- In-memory log state held by the `LOG_STATE` once-cell: the bounded
history buffer.  The broadcast sender is modelled separately for the
subscription claims. -/
structure LogState where
  buffer : List Str
deriving DecidableEq

/-- Embedding of the buffer update inside `log_line` (src/tools.rs:366):
drop the oldest entry once 200 lines are held, then append. -/
def log_line_buffer (buf : List Str) (l : Str) : List Str :=
  (if 200 ≤ buf.length then buf.drop 1 else buf) ++ [l]

/-- Embedding of `init_log_state` (src/tools.rs:343): the buffer starts
empty. -/
def init_log_state : LogState := ⟨[]⟩

/-- Embedding of `subscribe_logs` (src/tools.rs:353).  The argument is the
current `LOG_STATE` contents; `Except.error` models the `expect` panic. -/
def subscribe_logs (st : Option LogState) : Except String Unit :=
  match st with
  | some _ => Except.ok ()
  | none => Except.error "log state not initialized"

/-- Embedding of `log_line` (src/tools.rs:362): `if let Some(state)` makes
the uninitialized call a silent no-op, so the function always returns
normally (`Except.ok`). -/
def log_line (st : Option LogState) (l : Str) : Except String (Option LogState) :=
  Except.ok (match st with
    | some s => some ⟨log_line_buffer s.buffer l⟩
    | none => none)

/-- Embedding of `log_snapshot` (src/tools.rs:374): `unwrap_or_default`
yields the empty list when uninitialized, again returning normally. -/
def log_snapshot (st : Option LogState) : Except String (List Str) :=
  Except.ok (match st with
    | some s => s.buffer
    | none => [])

/-- Claim C8, counterexample: the claim asserts that `log_line` and
`log_snapshot` do not return normally before `init_log_state`, but both do —
`log_line` is a silent no-op and `log_snapshot` returns the empty list. -/
theorem loghub_uninit_counterexample :
    log_line none "x".data = Except.ok none ∧
    log_snapshot none = Except.ok [] :=
  ⟨rfl, rfl⟩

/-- Claim C8 (amended): before `init_log_state` only `subscribe_logs` is
fatal (it panics via `expect`); `log_line` returns normally without any
effect and `log_snapshot` returns normally with the empty history. -/
theorem loghub_uninit_behavior :
    subscribe_logs none = Except.error "log state not initialized" ∧
    (∀ l, log_line none l = Except.ok none) ∧
    log_snapshot none = Except.ok [] :=
  ⟨rfl, fun _ => rfl, rfl⟩

/-- After publishing `ls` into a buffer of at most 200 lines, the buffer
holds the last 200 lines of `buf ++ ls`. -/
theorem foldl_log_line_buffer (ls : List Str) :
    ∀ buf : List Str, buf.length ≤ 200 →
      List.foldl log_line_buffer buf ls =
        (buf ++ ls).drop (buf.length + ls.length - 200) := by
  induction ls with
  | nil =>
    intro buf hbuf
    simp only [List.foldl_nil, List.append_nil, List.length_nil, Nat.add_zero]
    rw [Nat.sub_eq_zero_of_le hbuf, List.drop_zero]
  | cons l rest ih =>
    intro buf hbuf
    simp only [List.foldl_cons]
    by_cases hfull : 200 ≤ buf.length
    · have hlen : buf.length = 200 := Nat.le_antisymm hbuf hfull
      have hstep : log_line_buffer buf l = buf.drop 1 ++ [l] := by
        simp [log_line_buffer, hfull]
      rw [hstep]
      have hlen2 : (buf.drop 1 ++ [l]).length = 200 := by
        simp [hlen]
      rw [ih _ (le_of_eq hlen2), hlen2]
      have harith : 200 + rest.length - 200 = rest.length := by omega
      have harith2 : buf.length + (l :: rest).length - 200 = rest.length + 1 := by
        simp [hlen]
      rw [harith, harith2]
      have hone : (1 : Nat) ≤ buf.length := by omega
      rw [List.append_assoc, List.singleton_append]
      have hsplit : (buf ++ l :: rest).drop (rest.length + 1) =
          ((buf ++ l :: rest).drop 1).drop rest.length := by
        rw [List.drop_drop, Nat.add_comm]
      rw [hsplit, List.drop_append_of_le_length hone]
    · have hstep : log_line_buffer buf l = buf ++ [l] := by
        simp [log_line_buffer, hfull]
      rw [hstep]
      have hlt : buf.length < 200 := lt_of_not_le hfull
      have hlen2 : (buf ++ [l]).length ≤ 200 := by
        simp
        omega
      rw [ih _ hlen2]
      have harith : (buf ++ [l]).length + rest.length - 200 =
          buf.length + (l :: rest).length - 200 := by
        simp
        omega
      rw [harith, List.append_assoc, List.singleton_append]

/-- Claim C5: from the freshly initialized state, publishing any 250 lines
leaves exactly the last 200 of them in the snapshot, in arrival order; the
first 50 published lines survive only positionally dropped, and when the
lines are pairwise distinct none of the first 50 values appears in the
snapshot. -/
theorem log_buffer_fifo (ls : List Str) (h : ls.length = 250) :
    List.foldl log_line_buffer init_log_state.buffer ls = ls.drop 50 ∧
    (List.foldl log_line_buffer init_log_state.buffer ls).length = 200 ∧
    (ls.Nodup → ∀ x ∈ ls.take 50, x ∉ List.foldl log_line_buffer init_log_state.buffer ls) := by
  have hmain : List.foldl log_line_buffer init_log_state.buffer ls = ls.drop 50 := by
    have := foldl_log_line_buffer ls [] (by simp)
    simp only [init_log_state, List.nil_append, List.length_nil, Nat.zero_add] at this ⊢
    rw [this, h]
  refine ⟨hmain, ?_, ?_⟩
  · rw [hmain]
    simp [h]
  · intro hnd x hx
    rw [hmain]
    intro hmem
    exact (List.disjoint_take_drop hnd (Nat.le_refl 50)) hx hmem

/-- Witness for C5: publishing a concrete list of 250 lines leaves exactly
its last 200 entries in the buffer. -/
theorem log_buffer_fifo_witness :
    List.foldl log_line_buffer init_log_state.buffer (List.replicate 250 "a".data) =
      (List.replicate 250 "a".data).drop 50 :=
  (log_buffer_fifo (List.replicate 250 "a".data) (by rw [List.length_replicate])).1

/-! ## Broadcast subscription model (src/tools.rs `subscribe_logs`,
`log_line`; tokio broadcast channel of capacity 256).

A trace of hub operations is a list of `sub` (a call to `subscribe_logs`)
and `pub line` (a call to `log_line`) events.  Each subscriber is a pending
queue of lines it has not yet consumed; `log_line` clones the line into
every registered queue, and a queue past the channel capacity loses its
oldest pending line (the receiver lags), never blocking the publisher. -/

inductive LogOp where
  | sub
  | pub (l : Str)

structure HubState where
  buffer : List Str
  queues : List (List Str)

/-- Delivery of one published line to one subscriber queue: append, evicting
the oldest pending line when the channel capacity (256) is reached. -/
def recvStep (q : List Str) (l : Str) : List Str :=
  if q.length < 256 then q ++ [l] else q.drop 1 ++ [l]

/-- One hub operation: `sub` registers a fresh empty queue (`subscribe`
starts receiving only from now on); `pub` broadcasts to every queue and
appends to the history buffer exactly as `log_line` does. -/
def hubStep (s : HubState) : LogOp → HubState
  | LogOp.sub => ⟨s.buffer, s.queues ++ [[]]⟩
  | LogOp.pub l => ⟨log_line_buffer s.buffer l, s.queues.map (fun q => recvStep q l)⟩

def runHub (s : HubState) (ops : List LogOp) : HubState := ops.foldl hubStep s

/-- The lines published in a trace, in order. -/
def pubsOf : List LogOp → List Str
  | [] => []
  | LogOp.sub :: rest => pubsOf rest
  | LogOp.pub l :: rest => l :: pubsOf rest

/-- The number of subscriptions in a trace. -/
def numSubs : List LogOp → Nat
  | [] => 0
  | LogOp.sub :: rest => numSubs rest + 1
  | LogOp.pub _ :: rest => numSubs rest

def initHub : HubState := ⟨[], []⟩

/-- Delivery of a list of lines to one queue. -/
def recvAll (q : List Str) (ls : List Str) : List Str := ls.foldl recvStep q

/-- Running a trace grows the queue list by one per subscription. -/
theorem runHub_queues_length (ops : List LogOp) :
    ∀ s : HubState, (runHub s ops).queues.length = s.queues.length + numSubs ops := by
  induction ops with
  | nil => intro s; simp [runHub, numSubs]
  | cons op rest ih =>
    intro s
    cases op with
    | sub =>
      have : runHub s (LogOp.sub :: rest) = runHub (hubStep s LogOp.sub) rest := rfl
      rw [this, ih]
      simp [hubStep, numSubs]
      omega
    | pub l =>
      have : runHub s (LogOp.pub l :: rest) = runHub (hubStep s (LogOp.pub l)) rest := rfl
      rw [this, ih]
      simp [hubStep, numSubs]

/-- A queue registered before a trace runs receives exactly the published
lines, delivered through `recvAll`. -/
theorem runHub_queue_get (ops : List LogOp) :
    ∀ (s : HubState) (k : Nat), k < s.queues.length →
      (runHub s ops).queues.get? k =
        (s.queues.get? k).map (fun q => recvAll q (pubsOf ops)) := by
  induction ops with
  | nil =>
    intro s k _
    simp only [runHub, List.foldl_nil, pubsOf, recvAll, List.foldl_nil]
    cases s.queues.get? k <;> rfl
  | cons op rest ih =>
    intro s k hk
    cases op with
    | sub =>
      have hstep : runHub s (LogOp.sub :: rest) = runHub (hubStep s LogOp.sub) rest := rfl
      rw [hstep, ih (hubStep s LogOp.sub) k (by simp [hubStep]; omega)]
      have hget : (hubStep s LogOp.sub).queues.get? k = s.queues.get? k := by
        simp only [hubStep]
        exact List.get?_append hk
      rw [hget]
      rfl
    | pub l =>
      have hstep : runHub s (LogOp.pub l :: rest) = runHub (hubStep s (LogOp.pub l)) rest := rfl
      rw [hstep, ih (hubStep s (LogOp.pub l)) k (by simp [hubStep]; omega)]
      have hget : (hubStep s (LogOp.pub l)).queues.get? k =
          (s.queues.get? k).map (fun q => recvStep q l) := by
        simp only [hubStep]
        exact List.get?_map _ _ _
      rw [hget, Option.map_map]
      rfl

/-- Under the channel capacity, delivery is plain concatenation. -/
theorem recvAll_of_le (ls : List Str) :
    ∀ q : List Str, q.length + ls.length ≤ 256 → recvAll q ls = q ++ ls := by
  induction ls with
  | nil => intro q _; simp [recvAll]
  | cons l rest ih =>
    intro q hq
    rw [List.length_cons] at hq
    have hlt : q.length < 256 := by omega
    have hstep : recvStep q l = q ++ [l] := by simp [recvStep, hlt]
    have : recvAll q (l :: rest) = recvAll (q ++ [l]) rest := by
      simp [recvAll, List.foldl_cons, hstep]
    rw [this, ih (q ++ [l]) (by simp only [List.length_append, List.length_singleton]; omega)]
    simp

/-- Every line a queue ever holds was pending at registration or published
afterwards. -/
theorem recvAll_mem (ls : List Str) :
    ∀ (q : List Str) (x : Str), x ∈ recvAll q ls → x ∈ q ∨ x ∈ ls := by
  induction ls with
  | nil => intro q x hx; exact Or.inl hx
  | cons l rest ih =>
    intro q x hx
    have : recvAll q (l :: rest) = recvAll (recvStep q l) rest := rfl
    rw [this] at hx
    rcases ih (recvStep q l) x hx with h | h
    · unfold recvStep at h
      by_cases hlt : q.length < 256
      · rw [if_pos hlt] at h
        rcases List.mem_append.mp h with h2 | h2
        · exact Or.inl h2
        · simp at h2
          exact Or.inr (by simp [h2])
      · rw [if_neg hlt] at h
        rcases List.mem_append.mp h with h2 | h2
        · exact Or.inl (List.mem_of_mem_drop h2)
        · simp at h2
          exact Or.inr (by simp [h2])
    · exact Or.inr (List.mem_cons_of_mem _ h)

/-- Claim C6: a subscriber registered at some point of a trace holds, at the
end, exactly the lines published after its registration (when they fit the
channel capacity of 256), and never holds any line value that was not
published after it subscribed — there is no retroactive history replay. -/
theorem subscribe_live_feed_only (t1 t2 : List LogOp) :
    (∀ x ∈ ((runHub initHub (t1 ++ LogOp.sub :: t2)).queues.get? (numSubs t1)).getD [],
        x ∈ pubsOf t2) ∧
    ((pubsOf t2).length ≤ 256 →
      (runHub initHub (t1 ++ LogOp.sub :: t2)).queues.get? (numSubs t1) = some (pubsOf t2)) := by
  have hsplit : runHub initHub (t1 ++ LogOp.sub :: t2) =
      runHub (hubStep (runHub initHub t1) LogOp.sub) t2 := by
    unfold runHub
    rw [List.foldl_append, List.foldl_cons]
  have hk : (runHub initHub t1).queues.length = numSubs t1 := by
    have := runHub_queues_length t1 initHub
    simpa [initHub] using this
  have hfresh : (hubStep (runHub initHub t1) LogOp.sub).queues.get? (numSubs t1) =
      some [] := by
    simp only [hubStep]
    rw [← hk]
    exact List.get?_concat_length _ _
  have hlt : numSubs t1 < (hubStep (runHub initHub t1) LogOp.sub).queues.length := by
    simp [hubStep]
    omega
  have hfinal : (runHub initHub (t1 ++ LogOp.sub :: t2)).queues.get? (numSubs t1) =
      some (recvAll [] (pubsOf t2)) := by
    rw [hsplit, runHub_queue_get t2 _ _ hlt, hfresh]
    rfl
  constructor
  · intro x hx
    rw [hfinal] at hx
    simp only [Option.getD_some] at hx
    rcases recvAll_mem (pubsOf t2) [] x hx with h | h
    · exact absurd h (List.not_mem_nil x)
    · exact h
  · intro hcap
    rw [hfinal, recvAll_of_le (pubsOf t2) [] (by simpa using hcap)]
    rw [List.nil_append]

/-- Witness for C6: with one line published before the subscription and one
after, the subscriber queue holds exactly the line published after. -/
theorem subscribe_live_feed_only_witness :
    (runHub initHub ([LogOp.pub "A".data] ++ LogOp.sub :: [LogOp.pub "X".data])).queues.get?
        (numSubs [LogOp.pub "A".data]) = some (pubsOf [LogOp.pub "X".data]) :=
  (subscribe_live_feed_only [LogOp.pub "A".data] [LogOp.pub "X".data]).2 (by decide)

/-! ## Route table (src/tools.rs, src/api.rs) -/

/-- Embedding of the `RouteMapping` record (src/tools.rs:11). -/
structure RouteMapping where
  method : Str
  path : Str
  file : Str
deriving DecidableEq

/-- Embedding of one iteration of the parsing loop in `read_route_mappings`
(src/tools.rs:277): trim the line, skip blanks and `#` comments, read three
whitespace-separated tokens (extra tokens are ignored, missing tokens drop
the line), uppercase and check the method, validate path and file. -/
def parseRouteLine (line : Str) : Option RouteMapping :=
  if trimStr line = [] then none
  else if strStartsWith ['#'] (trimStr line) then none
  else
    match splitWhitespace (trimStr line) with
    | [] => none
    | mtok :: rest =>
      if !(toUpperStr mtok == "GET".data || toUpperStr mtok == "POST".data) then none
      else
        match rest with
        | [] => none
        | ptok :: rest2 =>
          match rest2 with
          | [] => none
          | ftok :: _ =>
            if !(strStartsWith "/api/".data ptok) then none
            else if !(is_safe_rel_path (ptok.dropWhile (fun c => c == '/'))) then none
            else if !(is_safe_rel_path ftok) then none
            else some ⟨toUpperStr mtok, ptok, ftok⟩

/-- Embedding of `read_route_mappings` (src/tools.rs:273) on the contents of
`routes.txt`. -/
def read_route_mappings (contents : Str) : List RouteMapping :=
  (strLines contents).filterMap parseRouteLine

/-- The line `write_route_mappings` emits for one mapping
(src/tools.rs:315): `METHOD PATH FILE` followed by a newline. -/
def routeLine (m : RouteMapping) : Str :=
  m.method ++ ' ' :: m.path ++ ' ' :: m.file ++ ['\n']

/-- Embedding of `write_route_mappings` (src/tools.rs:310): the emitted
lines concatenated. -/
def write_route_mappings (ms : List RouteMapping) : Str :=
  (ms.map routeLine).flatten

/-- The table mutation inside `set_route_mapping` (src/api.rs:613): drop the
entries with the same method and path, append the new mapping. -/
def upsert (table : List RouteMapping) (m : RouteMapping) : List RouteMapping :=
  (table.filter (fun x => !(x.method == m.method && x.path == m.path))) ++ [m]

/-- Validity of a mapping in the sense listed by claim C2: method `GET` or
`POST`, path under `/api/` and traversal-safe once leading slashes are
stripped, file traversal-safe and not starting with a slash. -/
def mappingValid (m : RouteMapping) : Prop :=
  (m.method = "GET".data ∨ m.method = "POST".data) ∧
  strStartsWith "/api/".data m.path = true ∧
  is_safe_rel_path (m.path.dropWhile (fun c => c == '/')) = true ∧
  is_safe_rel_path m.file = true ∧
  m.file.head? ≠ some '/'

instance (m : RouteMapping) : Decidable (mappingValid m) := by
  unfold mappingValid
  infer_instance

/-- Claim C2, counterexample: the mapping `{GET, /api/x, ""}` passes the
validation accepted by `set_route_mapping` (the empty file string is
traversal-safe — it has no components — and starts with no slash), yet the
round trip loses it: its serialized line `GET /api/x ` has only two
whitespace-separated tokens, so the parser drops it and the read-back table
is empty rather than equal to the input. -/
theorem route_round_trip_counterexample :
    mappingValid ⟨"GET".data, "/api/x".data, []⟩ ∧
    read_route_mappings (write_route_mappings [⟨"GET".data, "/api/x".data, []⟩]) = [] := by
  exact ⟨by decide, by decide⟩

/-! ## api_get and the ping short-circuit (src/api.rs) -/

/-- Embedding of `read_ping_endpoint` (src/tools.rs:47) on the contents of
`ping_endpoint.txt` (a missing file reads as the empty string). -/
def read_ping_endpoint (contents : Str) : Str :=
  if trimStr contents = [] then "/api/v1/ping".data else trimStr contents

/-- Outcome of `api_get` (src/api.rs:460): the built-in ping response, a
mapped file served from disk, or 404. -/
inductive ApiGetResult where
  | pingResponse
  | servedFile (file : Str)
  | notFound
deriving DecidableEq

/-- Embedding of `find_route_mapping` (src/api.rs:744). -/
def find_route_mapping (method path : Str) (ms : List RouteMapping) : Option Str :=
  (ms.find? (fun m => m.method == method && m.path == path)).map (fun m => m.file)

/-- Embedding of `api_get` (src/api.rs:460): rebuild the requested path from
the wildcard capture, answer the ping endpoint first, then consult the route
table. -/
def api_get (pingCfg routesCfg : Str) (path : Str) : ApiGetResult :=
  if read_ping_endpoint pingCfg == "/api/".data ++ path then ApiGetResult.pingResponse
  else
    match find_route_mapping "GET".data ("/api/".data ++ path) (read_route_mappings routesCfg) with
    | some f => ApiGetResult.servedFile f
    | none => ApiGetResult.notFound

/-- Claim C7: with no custom ping endpoint configured (missing or blank
`ping_endpoint.txt`), `api_get` answers `GET /api/v1/ping` with the built-in
ping response whatever `routes.txt` contains; the ping check precedes the
table lookup. -/
theorem api_get_ping_short_circuit (pingCfg routesCfg : Str) (h : trimStr pingCfg = []) :
    api_get pingCfg routesCfg "v1/ping".data = ApiGetResult.pingResponse := by
  unfold api_get
  have hping : read_ping_endpoint pingCfg = "/api/v1/ping".data := by
    unfold read_ping_endpoint
    rw [if_pos h]
  rw [hping]
  have hc : ("/api/v1/ping".data == "/api/".data ++ "v1/ping".data) = true := by decide
  simp [hc]

/-- Witness for C7: the empty configuration together with a route table that
even maps `GET /api/v1/ping` still yields the built-in ping response. -/
theorem api_get_ping_short_circuit_witness :
    api_get "".data "GET /api/v1/ping other.json".data "v1/ping".data =
      ApiGetResult.pingResponse :=
  api_get_ping_short_circuit "".data "GET /api/v1/ping other.json".data (by decide)

/-! ## Upsert invariants (claim C3) -/

/-- At most one entry per `(method, path)` key. -/
def keysUnique (t : List RouteMapping) : Prop :=
  t.Pairwise (fun a b => ¬(a.method = b.method ∧ a.path = b.path))

/-- The entry a table lookup by key finds (first match, as in
`find_route_mapping`). -/
def findKey (method path : Str) (t : List RouteMapping) : Option RouteMapping :=
  t.find? (fun x => x.method == method && x.path == path)

/-- `upsert` preserves key uniqueness. -/
theorem upsert_keysUnique {t : List RouteMapping} (m : RouteMapping)
    (h : keysUnique t) : keysUnique (upsert t m) := by
  unfold upsert keysUnique
  rw [List.pairwise_append]
  refine ⟨List.Pairwise.filter _ h, List.pairwise_singleton _ _, ?_⟩
  intro a ha b hb
  rcases List.mem_filter.mp ha with ⟨_, hpred⟩
  simp only [List.mem_singleton] at hb
  subst hb
  intro hcon
  rw [hcon.1, hcon.2] at hpred
  simp at hpred

/-- Folding `upsert` over any operation list preserves key uniqueness. -/
theorem foldl_upsert_keysUnique (ops : List RouteMapping) :
    ∀ t : List RouteMapping, keysUnique t → keysUnique (List.foldl upsert t ops) := by
  induction ops with
  | nil => intro t h; exact h
  | cons op rest ih =>
    intro t h
    exact ih (upsert t op) (upsert_keysUnique op h)

/-- After `upsert t m`, looking the key of `m` up finds exactly `m`. -/
theorem findKey_upsert_self (t : List RouteMapping) (m : RouteMapping) :
    findKey m.method m.path (upsert t m) = some m := by
  unfold findKey upsert
  rw [List.find?_append]
  have hnone : (t.filter (fun x => !(x.method == m.method && x.path == m.path))).find?
      (fun x => x.method == m.method && x.path == m.path) = none := by
    rw [List.find?_eq_none]
    intro x hx
    rcases List.mem_filter.mp hx with ⟨_, hpred⟩
    simp only [Bool.not_eq_true'] at hpred
    rw [hpred]
    exact Bool.false_ne_true
  rw [hnone]
  simp [List.find?_cons]

/-- Searching a filtered list equals searching the original when the search
predicate implies the filter predicate. -/
theorem find?_filter_of_imp {α : Type} (p q : α → Bool) :
    ∀ t : List α, (∀ x, p x = true → q x = true) →
      (t.filter q).find? p = t.find? p := by
  intro t h
  induction t with
  | nil => rfl
  | cons a rest ih =>
    by_cases hq : q a = true
    · rw [List.filter_cons_of_pos hq, List.find?_cons, List.find?_cons]
      cases hpa : p a
      · exact ih
      · rfl
    · rw [List.filter_cons_of_neg (by simpa using hq), List.find?_cons]
      have hpa : p a = false := by
        cases hpa : p a
        · rfl
        · exact absurd (h a hpa) hq
      rw [hpa]
      exact ih

/-- Upserting a mapping with a different key does not change what the lookup
of this key finds. -/
theorem findKey_upsert_other (t : List RouteMapping) (o : RouteMapping)
    (method path : Str) (h : ¬(o.method = method ∧ o.path = path)) :
    findKey method path (upsert t o) = findKey method path t := by
  unfold findKey upsert
  rw [List.find?_append]
  have hlast : List.find? (fun x => x.method == method && x.path == path) [o] = none := by
    rw [List.find?_eq_none]
    intro x hx
    simp only [List.mem_singleton] at hx
    subst hx
    intro hcon
    rcases Bool.and_eq_true_iff.mp hcon with ⟨h1, h2⟩
    exact h ⟨beq_iff_eq.mp h1, beq_iff_eq.mp h2⟩
  rw [hlast]
  have himp : ∀ x : RouteMapping, (x.method == method && x.path == path) = true →
      (!(x.method == o.method && x.path == o.path)) = true := by
    intro x hx
    rcases Bool.and_eq_true_iff.mp hx with ⟨h1, h2⟩
    have hm := beq_iff_eq.mp h1
    have hp2 := beq_iff_eq.mp h2
    simp only [Bool.not_eq_true']
    cases hoc : (x.method == o.method && x.path == o.path)
    · rfl
    · rcases Bool.and_eq_true_iff.mp hoc with ⟨h3, h4⟩
      have hom := beq_iff_eq.mp h3
      have hop := beq_iff_eq.mp h4
      rw [hom] at hm
      rw [hop] at hp2
      exact absurd ⟨hm, hp2⟩ h
  rw [find?_filter_of_imp _ _ t himp]
  cases List.find? (fun x => x.method == method && x.path == path) t <;> rfl

/-- Upserting only keys different from the observed one leaves its lookup
unchanged. -/
theorem findKey_foldl_no_key (ops : List RouteMapping) :
    ∀ (t : List RouteMapping) (method path : Str),
      (∀ o ∈ ops, ¬(o.method = method ∧ o.path = path)) →
      findKey method path (List.foldl upsert t ops) = findKey method path t := by
  induction ops with
  | nil => intro t _ _ _; rfl
  | cons op rest ih =>
    intro t method path h
    have h1 : ¬(op.method = method ∧ op.path = path) := h op (List.mem_cons_self op rest)
    have h2 : ∀ o ∈ rest, ¬(o.method = method ∧ o.path = path) :=
      fun o ho => h o (List.mem_cons_of_mem _ ho)
    rw [show List.foldl upsert t (op :: rest) = List.foldl upsert (upsert t op) rest from rfl,
      ih (upsert t op) method path h2, findKey_upsert_other t op method path h1]

/-- Claim C3 (amended): starting from a table whose keys are pairwise
distinct (in particular the empty table, and any table that was only ever
mutated through `set_route_mapping`), any sequence of valid upserts leaves a
table with pairwise-distinct keys, and the entry surviving for an upserted
key is the most recently upserted mapping with that key.  The amendment is
needed because for an arbitrary starting table the claim fails: duplicates
already present under a key that is never upserted are not removed. -/
theorem upsert_last_write_wins (start pre post : List RouteMapping) (m : RouteMapping)
    (hstart : keysUnique start)
    (_hvalid : ∀ x ∈ pre ++ m :: post, mappingValid x)
    (hpost : ∀ x ∈ post, ¬(x.method = m.method ∧ x.path = m.path)) :
    keysUnique (List.foldl upsert start (pre ++ m :: post)) ∧
    findKey m.method m.path (List.foldl upsert start (pre ++ m :: post)) = some m := by
  have hfold : List.foldl upsert start (pre ++ m :: post) =
      List.foldl upsert (upsert (List.foldl upsert start pre) m) post := by
    rw [List.foldl_append, List.foldl_cons]
  constructor
  · rw [hfold]
    exact foldl_upsert_keysUnique post _
      (upsert_keysUnique m (foldl_upsert_keysUnique pre start hstart))
  · rw [hfold, findKey_foldl_no_key post _ m.method m.path hpost, findKey_upsert_self]

/-- Claim C3, counterexample: with a starting table that already holds two
entries for `(GET, /api/x)` and a single valid upsert of the unrelated key
`(POST, /api/y)`, the resulting table still holds two entries for
`(GET, /api/x)` — the claim quantifies over every starting table, but upsert
only deduplicates the key it touches. -/
theorem upsert_duplicate_start_counterexample :
    mappingValid ⟨"POST".data, "/api/y".data, "g".data⟩ ∧
    (List.foldl upsert
        [⟨"GET".data, "/api/x".data, "f1".data⟩, ⟨"GET".data, "/api/x".data, "f1".data⟩]
        [⟨"POST".data, "/api/y".data, "g".data⟩]).countP
      (fun x => x.method == "GET".data && x.path == "/api/x".data) = 2 := by
  exact ⟨by decide, by decide⟩

/-- Witness for C3: upserting `{GET, /api/x, f1}` and then `{GET, /api/x, f2}`
into the empty table leaves a duplicate-free table whose entry for
`(GET, /api/x)` is the mapping with file `f2`. -/
theorem upsert_last_write_wins_witness :
    keysUnique (List.foldl upsert []
      ([⟨"GET".data, "/api/x".data, "f1".data⟩] ++
        ⟨"GET".data, "/api/x".data, "f2".data⟩ :: [])) ∧
    findKey "GET".data "/api/x".data (List.foldl upsert []
      ([⟨"GET".data, "/api/x".data, "f1".data⟩] ++
        ⟨"GET".data, "/api/x".data, "f2".data⟩ :: [])) =
      some ⟨"GET".data, "/api/x".data, "f2".data⟩ :=
  upsert_last_write_wins [] [⟨"GET".data, "/api/x".data, "f1".data⟩] []
    ⟨"GET".data, "/api/x".data, "f2".data⟩ (by simp [keysUnique]) (by decide) (by simp)

/-! ## set_route_mapping (src/api.rs) -/

/-- Fuel-based model of Rust `str::trim_start_matches` for a string pattern:
strip the pattern from the front repeatedly.  Each strip removes at least
one character, so `s.length` rounds of fuel reach the fixpoint; the fuel
only makes the recursion structural. -/
def trimStartAux : Nat → Str → Str → Str
  | 0, _, s => s
  | n + 1, pat, s =>
    if !pat.isEmpty && strStartsWith pat s then trimStartAux n pat (s.drop pat.length)
    else s

/-- Model of Rust `str::trim_start_matches` (string pattern, repeatedly
removed). -/
def trimStartMatches (pat s : Str) : Str := trimStartAux s.length pat s

example : trimStartMatches "/json/".data "/json//json/a".data = "a".data := by decide
example : trimStartMatches "/json/".data "/json/json/x".data = "json/x".data := by decide

/-- Embedding of `normalize_json_file` (src/api.rs:729): trim, strip leading
`/json/` occurrences, then leading `json/` occurrences, reject a remaining
leading slash (`none` models the 400 response). -/
def normalize_json_file (input : Str) : Option Str :=
  let t0 := trimStr input
  let t1 := if strStartsWith "/json/".data t0 then trimStartMatches "/json/".data t0 else t0
  let t2 := if strStartsWith "json/".data t1 then trimStartMatches "json/".data t1 else t1
  if strStartsWith ['/'] t2 then none else some t2

/-- Outcome of `set_route_mapping`: a client-error rejection or the redirect
after a successful write.  The table component is the persisted route table
after the call (unchanged on rejection). -/
inductive SetRouteStatus where
  | ok
  | badRequest
deriving DecidableEq

/-- Embedding of `set_route_mapping` (src/api.rs:581) applied to the three
extracted form fields (`None` models a missing field) and the persisted
table read by `read_route_mappings`.  Validation runs before the table is
touched; only the success path rewrites the table, with the upsert. -/
def set_route_mapping (methodField pathField fileField : Option Str)
    (table : List RouteMapping) : SetRouteStatus × List RouteMapping :=
  match methodField, pathField, fileField with
  | some m, some p, some f =>
    if !(toUpperStr (trimStr m) == "GET".data || toUpperStr (trimStr m) == "POST".data) then
      (SetRouteStatus.badRequest, table)
    else if !(strStartsWith "/api/".data (trimStr p)) then
      (SetRouteStatus.badRequest, table)
    else if !(is_safe_rel_path ((trimStr p).dropWhile (fun c => c == '/'))) then
      (SetRouteStatus.badRequest, table)
    else
      match normalize_json_file f with
      | none => (SetRouteStatus.badRequest, table)
      | some file =>
        if !(is_safe_rel_path file) then (SetRouteStatus.badRequest, table)
        else (SetRouteStatus.ok, upsert table ⟨toUpperStr (trimStr m), trimStr p, file⟩)
  | _, _, _ => (SetRouteStatus.badRequest, table)

/-- Method validation of `set_route_mapping`: trimmed, uppercased, `GET` or
`POST`. -/
def methodOk (m : Str) : Bool :=
  toUpperStr (trimStr m) == "GET".data || toUpperStr (trimStr m) == "POST".data

/-- Path validation of `set_route_mapping`: trimmed, under `/api/`, and
traversal-safe once leading slashes are stripped. -/
def pathOk (p : Str) : Bool :=
  strStartsWith "/api/".data (trimStr p) &&
    is_safe_rel_path ((trimStr p).dropWhile (fun c => c == '/'))

/-- File validation of `set_route_mapping`: `normalize_json_file` accepts
and its result is traversal-safe. -/
def fileOk (f : Str) : Bool :=
  match normalize_json_file f with
  | some g => is_safe_rel_path g
  | none => false

/-- Modelled from the spec: the file validation as claim C9 words it, with a
single optional strip of a leading `/json/` or `json/` before the checks
(the code instead strips repeatedly). -/
def spec_file_ok (f : Str) : Bool :=
  let t0 := trimStr f
  let t1 :=
    if strStartsWith "/json/".data t0 then t0.drop 6
    else if strStartsWith "json/".data t0 then t0.drop 5
    else t0
  !(strStartsWith ['/'] t1) && is_safe_rel_path t1

/-- Claim C9, counterexample: the file field `/json//json/a` fails the
validation as the claim states it (one strip of `/json/` leaves `/json/a`,
which begins with a slash), yet `set_route_mapping` accepts the request and
writes the table: `trim_start_matches` strips the prefix repeatedly, leaving
the safe name `a`. -/
theorem set_route_mapping_counterexample :
    spec_file_ok "/json//json/a".data = false ∧
    set_route_mapping (some "GET".data) (some "/api/x".data) (some "/json//json/a".data) [] =
      (SetRouteStatus.ok, [⟨"GET".data, "/api/x".data, "a".data⟩]) := by
  exact ⟨by decide, by decide⟩

/-- Claim C9 (amended): whenever one of the three extracted fields fails the
validation the code actually performs — method not `GET`/`POST` after
trimming and uppercasing, path not under `/api/` or unsafe after stripping
leading slashes, or file rejected by `normalize_json_file` (which strips
leading `/json/` and `json/` prefixes repeatedly) or unsafe — the call
answers 400 before any store write and the persisted table is unchanged. -/
theorem set_route_mapping_rejects_invalid (m p f : Str) (table : List RouteMapping)
    (h : ¬(methodOk m = true ∧ pathOk p = true ∧ fileOk f = true)) :
    set_route_mapping (some m) (some p) (some f) table = (SetRouteStatus.badRequest, table) := by
  unfold set_route_mapping
  dsimp only
  by_cases h1 : (toUpperStr (trimStr m) == "GET".data || toUpperStr (trimStr m) == "POST".data) = true
  · rw [h1]
    simp only [Bool.not_true, Bool.false_eq_true, if_false]
    by_cases h2 : strStartsWith "/api/".data (trimStr p) = true
    · rw [h2]
      simp only [Bool.not_true, Bool.false_eq_true, if_false]
      by_cases h3 : is_safe_rel_path ((trimStr p).dropWhile (fun c => c == '/')) = true
      · rw [h3]
        simp only [Bool.not_true, Bool.false_eq_true, if_false]
        cases hn : normalize_json_file f with
        | none => rfl
        | some g =>
          dsimp only
          by_cases h4 : is_safe_rel_path g = true
          · exact absurd ⟨h1, by rw [pathOk, h2, h3]; rfl, by rw [fileOk, hn]; exact h4⟩ h
          · rw [Bool.not_eq_true] at h4
            rw [h4]
            rfl
      · rw [Bool.not_eq_true] at h3
        rw [h3]
        rfl
    · rw [Bool.not_eq_true] at h2
      rw [h2]
      rfl
  · rw [Bool.not_eq_true] at h1
    rw [h1]
    rfl

/-- Witness for C9: the method `PUT` is rejected and the table is kept. -/
theorem set_route_mapping_rejects_invalid_witness :
    set_route_mapping (some "PUT".data) (some "/api/x".data) (some "a".data) [] =
      (SetRouteStatus.badRequest, []) :=
  set_route_mapping_rejects_invalid "PUT".data "/api/x".data "a".data []
    (by intro hcon; exact absurd hcon.1 (by decide))

/-! ## Round trip of the route table (claim C2) -/

/-- `splitOnChar` never returns the empty list. -/
theorem splitOnChar_ne_nil (c : Char) : ∀ s : Str, splitOnChar c s ≠ [] := by
  intro s
  induction s with
  | nil => simp [splitOnChar]
  | cons a rest ih =>
    unfold splitOnChar
    by_cases hac : (a == c) = true
    · simp [hac]
    · simp only [hac, Bool.false_eq_true, if_false]
      cases hsp : splitOnChar c rest with
      | nil => exact absurd hsp ih
      | cons h t => simp

/-- Splitting at an explicit separator after a separator-free chunk peels
exactly that chunk. -/
theorem splitOnChar_append (c : Char) :
    ∀ xs ys : Str, c ∉ xs → splitOnChar c (xs ++ (c :: ys)) = xs :: splitOnChar c ys := by
  intro xs
  induction xs with
  | nil =>
    intro ys _
    simp [splitOnChar]
  | cons a rest ih =>
    intro ys hmem
    have hac : (a == c) = false := by
      cases hbe : (a == c)
      · rfl
      · exact absurd (beq_iff_eq.mp hbe ▸ List.mem_cons_self a rest) hmem
    have hrest : c ∉ rest := fun hr => hmem (List.mem_cons_of_mem a hr)
    simp only [List.cons_append, splitOnChar]
    simp only [hac, Bool.false_eq_true, if_false, List.append_eq]
    rw [ih ys hrest]

/-- `dropWhile` is the identity when the first character is not matched. -/
theorem dropWhile_eq_self_of_head (p : Char → Bool) (s : Str)
    (h : ∀ c, s.head? = some c → p c = false) : List.dropWhile p s = s := by
  cases s with
  | nil => rfl
  | cons c t =>
    rw [List.dropWhile_cons, if_neg]
    simp [h c rfl]

/-- `trimStr` is the identity when neither end is whitespace. -/
theorem trimStr_eq_self (s : Str)
    (h1 : ∀ c, s.head? = some c → isRustWs c = false)
    (h2 : ∀ c, s.getLast? = some c → isRustWs c = false) : trimStr s = s := by
  unfold trimStr
  rw [dropWhile_eq_self_of_head _ _ h1]
  rw [dropWhile_eq_self_of_head _ _ (by
    intro c hc
    rw [List.head?_reverse] at hc
    exact h2 c hc)]
  exact List.reverse_reverse s

/-- The last element of an append with a non-empty right part. -/
theorem getLast?_append_right {α : Type} (l l2 : List α) (h : l2 ≠ []) :
    (l ++ l2).getLast? = l2.getLast? := by
  rcases Option.isSome_iff_exists.mp ((List.getLast?_isSome).mpr h) with ⟨x, hx⟩
  rw [List.getLast?_append, hx]
  rfl

/-- Reading a whitespace-free token moves it into the accumulator. -/
theorem swAux_token :
    ∀ (t rest acc : Str), (∀ c ∈ t, isRustWs c = false) →
      swAux (t ++ rest) acc = swAux rest (t.reverse ++ acc) := by
  intro t
  induction t with
  | nil => intro rest acc _; simp
  | cons c t2 ih =>
    intro rest acc hws
    have hc : isRustWs c = false := hws c (List.mem_cons_self c t2)
    have ht2 : ∀ x ∈ t2, isRustWs x = false := fun x hx => hws x (List.mem_cons_of_mem c hx)
    simp only [List.cons_append, swAux]
    simp only [hc, Bool.false_eq_true, if_false, List.append_eq]
    rw [ih rest (c :: acc) ht2]
    simp [List.append_assoc]

/-- A space flushes a non-empty accumulator as one token. -/
theorem swAux_space (rest acc : Str) (h : acc ≠ []) :
    swAux (' ' :: rest) acc = acc.reverse :: swAux rest [] := by
  simp [swAux, show isRustWs ' ' = true from rfl, h]

/-- Splitting `METHOD PATH FILE` with whitespace-free non-empty tokens. -/
theorem splitWhitespace_three (mtok ptok ftok : Str)
    (hm : mtok ≠ []) (hp : ptok ≠ []) (hf : ftok ≠ [])
    (hmw : ∀ c ∈ mtok, isRustWs c = false)
    (hpw : ∀ c ∈ ptok, isRustWs c = false)
    (hfw : ∀ c ∈ ftok, isRustWs c = false) :
    splitWhitespace (mtok ++ (' ' :: (ptok ++ (' ' :: ftok)))) = [mtok, ptok, ftok] := by
  unfold splitWhitespace
  rw [swAux_token mtok (' ' :: (ptok ++ (' ' :: ftok))) [] hmw, List.append_nil]
  rw [swAux_space _ _ (by simpa using hm), List.reverse_reverse]
  rw [swAux_token ptok (' ' :: ftok) [] hpw, List.append_nil]
  rw [swAux_space _ _ (by simpa using hp), List.reverse_reverse]
  have hf2 : swAux ftok [] = [ftok] := by
    have h3 := swAux_token ftok [] [] hfw
    rw [List.append_nil, List.append_nil] at h3
    rw [h3]
    have hrev : ftok.reverse ≠ [] := by simpa using hf
    simp [swAux, hrev]
  rw [hf2]

/-- A line whose first character is not `#` is not a comment. -/
theorem strStartsWith_hash_false (s : Str) (c : Char)
    (hc : s.head? = some c) (hne : ('#' == c) = false) :
    strStartsWith ['#'] s = false := by
  cases s with
  | nil => cases hc
  | cons a t =>
    have ha : a = c := by
      injection hc
    subst ha
    simp [strStartsWith, hne]

/-- Parsing the serialized line of a valid, whitespace-free mapping returns
exactly that mapping. -/
theorem parseRouteLine_token (mtok ptok ftok : Str)
    (hm : mtok = "GET".data ∨ mtok = "POST".data)
    (hpath : strStartsWith "/api/".data ptok = true)
    (hsafe : is_safe_rel_path (ptok.dropWhile (fun c => c == '/')) = true)
    (hfsafe : is_safe_rel_path ftok = true)
    (hfne : ftok ≠ [])
    (hpws : ∀ c ∈ ptok, isRustWs c = false)
    (hfws : ∀ c ∈ ftok, isRustWs c = false) :
    parseRouteLine (mtok ++ (' ' :: (ptok ++ (' ' :: ftok)))) = some ⟨mtok, ptok, ftok⟩ := by
  have hpne : ptok ≠ [] := by
    intro hh
    rw [hh] at hpath
    exact absurd hpath (by decide)
  have hmne : mtok ≠ [] := by
    rcases hm with hg | hg <;> (rw [hg]; decide)
  have hmws : ∀ c ∈ mtok, isRustWs c = false := by
    rcases hm with hg | hg <;> (rw [hg]; decide)
  have hmhead : ∃ c0, mtok.head? = some c0 ∧ isRustWs c0 = false ∧ ('#' == c0) = false := by
    rcases hm with hg | hg <;> rw [hg]
    · exact ⟨'G', rfl, by decide, by decide⟩
    · exact ⟨'P', rfl, by decide, by decide⟩
  have hup : toUpperStr mtok = mtok := by
    rcases hm with hg | hg <;> (rw [hg]; decide)
  have hmchk : (toUpperStr mtok == "GET".data || toUpperStr mtok == "POST".data) = true := by
    rw [hup]
    rcases hm with hg | hg <;> (rw [hg]; decide)
  obtain ⟨c0, hc0, hc0ws, hc0hash⟩ := hmhead
  have hLhead : (mtok ++ (' ' :: (ptok ++ (' ' :: ftok)))).head? = some c0 := by
    cases mtok with
    | nil => exact absurd rfl hmne
    | cons a t =>
      have : a = c0 := by injection hc0
      subst this
      rfl
  have hLne : mtok ++ (' ' :: (ptok ++ (' ' :: ftok))) ≠ [] := by
    intro hnil
    rw [hnil] at hLhead
    cases hLhead
  have hLlast : (mtok ++ (' ' :: (ptok ++ (' ' :: ftok)))).getLast? = ftok.getLast? := by
    have hshape : mtok ++ (' ' :: (ptok ++ (' ' :: ftok))) =
        ((mtok ++ (' ' :: ptok)) ++ [' ']) ++ ftok := by
      simp
    rw [hshape, getLast?_append_right _ _ hfne]
  have htrim : trimStr (mtok ++ (' ' :: (ptok ++ (' ' :: ftok)))) =
      mtok ++ (' ' :: (ptok ++ (' ' :: ftok))) := by
    refine trimStr_eq_self _ ?_ ?_
    · intro c hc
      rw [hLhead] at hc
      have : c0 = c := by injection hc
      exact this ▸ hc0ws
    · intro c hc
      rw [hLlast] at hc
      exact hfws c (List.mem_of_mem_getLast? hc)
  have hhash : strStartsWith ['#'] (mtok ++ (' ' :: (ptok ++ (' ' :: ftok)))) = false :=
    strStartsWith_hash_false _ c0 hLhead hc0hash
  have hsplit : splitWhitespace (mtok ++ (' ' :: (ptok ++ (' ' :: ftok)))) =
      [mtok, ptok, ftok] :=
    splitWhitespace_three mtok ptok ftok hmne hpne hfne hmws hpws hfws
  unfold parseRouteLine
  rw [htrim, if_neg hLne, hhash]
  simp only [Bool.false_eq_true, if_false]
  rw [hsplit]
  dsimp only
  simp only [hmchk, Bool.not_true, Bool.false_eq_true, if_false]
  simp only [hpath, hsafe, hfsafe, Bool.not_true, Bool.false_eq_true, if_false]
  rw [hup]

/-- Claim C2 (amended): writing a route table and reading it back yields
exactly the same table — in particular the same set of mappings — for every
table of mappings that pass the validation accepted by `set_route_mapping`
and additionally have a non-empty file and no whitespace inside path or
file.  The extra hypotheses are forced by the line format: a mapping whose
file is empty (or whose path or file contains whitespace) serializes to a
line that parses differently, as the counterexample shows. -/
theorem route_table_round_trip (ms : List RouteMapping)
    (h : ∀ m ∈ ms, mappingValid m ∧ m.file ≠ [] ∧
      (∀ c ∈ m.path, isRustWs c = false) ∧ (∀ c ∈ m.file, isRustWs c = false)) :
    read_route_mappings (write_route_mappings ms) = ms := by
  induction ms with
  | nil => rfl
  | cons m rest ih =>
    obtain ⟨⟨hm, hpath, hsafe, hfsafe, _⟩, hfne, hpws, hfws⟩ := h m (List.mem_cons_self m rest)
    have hrest := fun x hx => h x (List.mem_cons_of_mem m hx)
    have hwrite : write_route_mappings (m :: rest) =
        (m.method ++ (' ' :: (m.path ++ (' ' :: m.file)))) ++
          ('\n' :: write_route_mappings rest) := by
      show (List.map routeLine (m :: rest)).flatten = _
      rw [List.map_cons, List.flatten_cons]
      show routeLine m ++ write_route_mappings rest = _
      unfold routeLine
      simp
    have hbody_nonl : '\n' ∉ (m.method ++ (' ' :: (m.path ++ (' ' :: m.file)))) := by
      intro hmem
      rcases List.mem_append.mp hmem with h1 | h1
      · rcases hm with hg | hg <;> (rw [hg] at h1; exact absurd h1 (by decide))
      · rcases List.mem_cons.mp h1 with h2 | h2
        · exact absurd h2 (by decide)
        · rcases List.mem_append.mp h2 with h3 | h3
          · exact absurd (hpws '\n' h3) (by decide)
          · rcases List.mem_cons.mp h3 with h4 | h4
            · exact absurd h4 (by decide)
            · exact absurd (hfws '\n' h4) (by decide)
    have hread : read_route_mappings (write_route_mappings (m :: rest)) =
        (splitOnChar '\n' ((m.method ++ (' ' :: (m.path ++ (' ' :: m.file)))) ++
          ('\n' :: write_route_mappings rest))).filterMap parseRouteLine := by
      rw [hwrite]
      rfl
    rw [hread, splitOnChar_append '\n' _ _ hbody_nonl, List.filterMap_cons,
      parseRouteLine_token m.method m.path m.file hm hpath hsafe hfsafe hfne hpws hfws]
    dsimp only
    show (⟨m.method, m.path, m.file⟩ : RouteMapping) ::
      read_route_mappings (write_route_mappings rest) = m :: rest
    rw [ih hrest]

/-- Witness for C2: a concrete two-mapping table round-trips unchanged. -/
theorem route_table_round_trip_witness :
    read_route_mappings (write_route_mappings
      [⟨"GET".data, "/api/v1/users".data, "users.json".data⟩,
       ⟨"POST".data, "/api/v1/login".data, "auth/login.json".data⟩]) =
      [⟨"GET".data, "/api/v1/users".data, "users.json".data⟩,
       ⟨"POST".data, "/api/v1/login".data, "auth/login.json".data⟩] :=
  route_table_round_trip _ (by decide)
